import Mathlib

/-!
Verification of the control-flow, type-promotion, overload-resolution,
variable-definition and array-indexing layers of the repository.

The definitions below are shallow embeddings of the Python source:

* `CFGraph`, `process`, `backbone`, `inLoops`, … embed
  `numba/controlflow.py` (class `CFGraph` and `ControlFlowAnalysis.run`).
* `promote`, `promoteNumeric`, … embed `numba/typesystem/promotion.py`.
* `resolveOverload`, `Rating`, … embed `numba/typing/templates.py`.
* `storeTarget` embeds `Interpreter.store` of `numba/interpreter.py`.
* `getItemPointer2` embeds `numba/cgutils.py`.

Python sets over CFG nodes become `Finset Nat`, dicts of sets become
functions `Nat → Finset Nat`, and the `while todo` chaotic worklist
iterations of `_find_dominators_internal` (and the DFS / loop-body
closures) are embedded as fuelled iterations of the same one-step
update, with enough fuel that the same fixed point is reached.
`raise` becomes `Except.error`.
-/

set_option maxRecDepth 8000

/-- A control flow graph: node set, edge set, optional entry point.
Mirrors `CFGraph.__init__` in `numba/controlflow.py` (`_nodes`,
`_preds`/`_succs`/`_edge_data` are recovered from `edges`; the per-edge
data is dropped since no claim depends on it). -/
structure CFGraph where
  nodes : Finset Nat
  edges : Finset (Nat × Nat)
  entry : Option Nat

/-- Successors of `n` (`self._succs[n]`). -/
def succsOf (edges : Finset (Nat × Nat)) (n : Nat) : Finset Nat :=
  (edges.filter (fun e => e.1 = n)).image Prod.snd

/-- Predecessors of `n` (`self._preds[n]`). -/
def predsOf (edges : Finset (Nat × Nat)) (n : Nat) : Finset Nat :=
  (edges.filter (fun e => e.2 = n)).image Prod.fst

/-- One step of the reachability closure: add all successors. -/
def reachStep (edges : Finset (Nat × Nat)) (s : Finset Nat) : Finset Nat :=
  s ∪ s.biUnion (succsOf edges)

/-- Fuelled closure computing the set of nodes reachable from `start`
(the set visited by `CFGraph._dfs`). -/
def reachClosure (edges : Finset (Nat × Nat)) (start : Finset Nat) : Nat → Finset Nat
  | 0 => start
  | k + 1 => reachStep edges (reachClosure edges start k)

/-- `functools.reduce(set.intersection, [doms[p] for p in preds])`:
intersection of the rows of `d` over the finite set `s` (empty when `s`
is empty; the source only evaluates it for nonempty `preds`). -/
def interOver (s : Finset Nat) (d : Nat → Finset Nat) : Finset Nat :=
  if h : s = ∅ then ∅
  else s.inf' (Finset.nonempty_iff_ne_empty.mpr h) d

/-- List the elements of a finite set of naturals in ascending order
(a concrete stand-in for Python's set/dict iteration order). -/
def finsetAscList (s : Finset Nat) : List Nat :=
  (List.range (s.sup id + 1)).filter (fun n => n ∈ s)

/-- Initial dominator table of `_find_dominators_internal`:
`doms[e] = {e}` for entry/exit seeds, `doms[n] = set(self._nodes)` for
the other live nodes. -/
def domInit (univ entries : Finset Nat) : Nat → Finset Nat :=
  fun n => if n ∈ entries then {n} else if n ∈ univ then univ else ∅

/-- One full update round of the dominator fixed point:
`new_doms(n) = {n} ∪ ⋂ doms(pred)` for every live non-entry node
(`{n}` alone when `n` has no predecessors); seed rows are untouched. -/
def domStep (univ entries : Finset Nat) (predsT : Nat → Finset Nat)
    (d : Nat → Finset Nat) : Nat → Finset Nat :=
  fun n =>
    if n ∈ entries then d n
    else if n ∈ univ then
      {n} ∪ (if predsT n = ∅ then ∅ else interOver (predsT n) d)
    else d n

/-- Fuelled iteration of `domStep`; with sufficient fuel this reaches the
same fixed point as the `while todo` worklist loop of the source. -/
def domIter (univ entries : Finset Nat) (predsT : Nat → Finset Nat) :
    Nat → (Nat → Finset Nat)
  | 0 => domInit univ entries
  | k + 1 => domStep univ entries predsT (domIter univ entries predsT k)

/-- Fuel bound for `domIter`: each non-stable round strictly shrinks the
total size of the table, which starts below `card² + card`. -/
def dominatorFuel (univ : Finset Nat) : Nat :=
  univ.card * univ.card + univ.card + 1

/-- `_find_dominators_internal`: fails when there is no seed, otherwise
iterates the fixed-point update. -/
def domFix (univ entries : Finset Nat) (predsT : Nat → Finset Nat) :
    Except String (Nat → Finset Nat) :=
  if entries = ∅ then
    .error "no entry points: dominator algorithm cannot be seeded"
  else
    .ok (domIter univ entries predsT (dominatorFuel univ))

/-- The `Loop` namedtuple of `numba/controlflow.py`. -/
structure Loop where
  header : Nat
  body : Finset Nat
  entries : Finset Nat
  exits : Finset Nat

instance : DecidableEq Loop := fun a b =>
  decidable_of_iff
    (a.header = b.header ∧ a.body = b.body ∧
      a.entries = b.entries ∧ a.exits = b.exits)
    (by cases a; cases b; simp)

/-- One step of the loop-body closure of `_find_loops`: members other
than the header contribute their predecessors. -/
def loopBodyStep (preds : Nat → Finset Nat) (header : Nat) (s : Finset Nat) :
    Finset Nat :=
  s ∪ (s.erase header).biUnion preds

/-- Fuelled closure building a loop body: start from the header plus the
back-edge sources, and repeatedly add predecessors of non-header
members (the queue-based loop of `_find_loops`). -/
def loopBodyClosure (preds : Nat → Finset Nat) (header : Nat)
    (seeds : Finset Nat) : Nat → Finset Nat
  | 0 => insert header seeds
  | k + 1 => loopBodyStep preds header (loopBodyClosure preds header seeds k)

/-- Build the `Loop` record for one header, merging the bodies of all
back edges into that header (`bodies[header].update(body)`):
`entries` are the external predecessors, `exits` the external
successors of the body. -/
def mkLoop (preds succs : Nat → Finset Nat) (fuel : Nat)
    (backEdges : Finset (Nat × Nat)) (h : Nat) : Loop :=
  let seeds := (backEdges.filter (fun p => p.2 = h)).image Prod.fst
  let body := loopBodyClosure preds h seeds fuel
  { header := h
    body := body
    entries := body.biUnion preds \ body
    exits := body.biUnion succs \ body }

/-- Key order used by `sorted(loops.values(), key=lambda loop: len(loop.body))`. -/
def loopKeyLe (l1 l2 : Loop) : Prop :=
  l1.body.card ≤ l2.body.card

instance : DecidableRel loopKeyLe := fun l1 l2 =>
  inferInstanceAs (Decidable (l1.body.card ≤ l2.body.card))

instance : IsTotal Loop loopKeyLe :=
  ⟨fun l1 l2 => Nat.le_total l1.body.card l2.body.card⟩

instance : IsTrans Loop loopKeyLe :=
  ⟨fun _ _ _ h1 h2 => Nat.le_trans h1 h2⟩

/-- The registration order of loops: `sorted` in Python is an ascending
stable sort, so this lists loops from smallest body to largest. -/
def registerLoops (loops : List Loop) : List Loop :=
  List.insertionSort loopKeyLe loops

/-- Everything `CFGraph.process()` computes and stores on the graph. -/
structure CFGResult where
  nodes : Finset Nat
  edges : Finset (Nat × Nat)
  entry : Nat
  exitPoints : Finset Nat
  doms : Nat → Finset Nat
  backEdges : Finset (Nat × Nat)
  loops : List Loop
  postDoms : Nat → Finset Nat

/-- Live nodes after `_eliminate_dead_blocks` (reachable from the entry). -/
def liveNodes (g : CFGraph) (e : Nat) : Finset Nat :=
  reachClosure g.edges {e} (g.nodes.card + 1)

/-- Edges that survive dead-block elimination. -/
def liveEdges (g : CFGraph) (e : Nat) : Finset (Nat × Nat) :=
  g.edges.filter (fun p => p.1 ∈ liveNodes g e ∧ p.2 ∈ liveNodes g e)

def liveSuccs (g : CFGraph) (e : Nat) : Nat → Finset Nat :=
  succsOf (liveEdges g e)

def livePreds (g : CFGraph) (e : Nat) : Nat → Finset Nat :=
  predsOf (liveEdges g e)

/-- `_find_exit_points`: live nodes with no successor. -/
def exitPointsOf (g : CFGraph) (e : Nat) : Finset Nat :=
  (liveNodes g e).filter (fun n => liveSuccs g e n = ∅)

/-- `_find_dominators`: the forward dominator table. -/
def domsOf (g : CFGraph) (e : Nat) : Nat → Finset Nat :=
  domIter (liveNodes g e) {e} (livePreds g e) (dominatorFuel (liveNodes g e))

/-- `_find_back_edges`: an edge `(src, dest)` is a back edge iff `dest`
dominates `src`. -/
def backEdgesOf (g : CFGraph) (e : Nat) : Finset (Nat × Nat) :=
  (liveEdges g e).filter (fun p => p.2 ∈ domsOf g e p.1)

/-- The source's `assert len(back) <= 1`: at most one back edge can
leave a given node. -/
def backEdgeOk (g : CFGraph) (e : Nat) : Prop :=
  ∀ src ∈ liveNodes g e, ((domsOf g e src) ∩ liveSuccs g e src).card ≤ 1

instance (g : CFGraph) (e : Nat) : Decidable (backEdgeOk g e) :=
  inferInstanceAs (Decidable (∀ src ∈ liveNodes g e, _ ≤ 1))

/-- The loop headers (destinations of back edges); listed in a fixed
order standing in for Python's set/dict iteration order. -/
def headersOf (g : CFGraph) (e : Nat) : List Nat :=
  finsetAscList ((backEdgesOf g e).image Prod.snd)

/-- `_find_loops`: loops in registration order (ascending body size). -/
def loopsOf (g : CFGraph) (e : Nat) : List Loop :=
  registerLoops ((headersOf g e).map
    (mkLoop (livePreds g e) (liveSuccs g e) ((liveNodes g e).card + 1)
      (backEdgesOf g e)))

/-- The dummy exit of `_find_post_dominators`: a fresh node. -/
def dummyExit (g : CFGraph) (e : Nat) : Nat :=
  (liveNodes g e).sup id + 1

/-- The union of bodies of loops without exits (members of infinite
loops, which get linked to the dummy exit). -/
def noExitBodies (g : CFGraph) (e : Nat) : Finset Nat :=
  ((loopsOf g e).filter (fun l => l.exits = ∅)).foldr
    (fun l acc => l.body ∪ acc) ∅

/-- Successor table augmented with the edges into the dummy exit.  For
the post-dominator pass this is the predecessor table. -/
def succsAug (g : CFGraph) (e : Nat) : Nat → Finset Nat :=
  fun n => liveSuccs g e n ∪
    (if n ∈ noExitBodies g e then {dummyExit g e} else ∅)

/-- Raw post-dominator table (before the dummy exit is scrubbed). -/
def postRawOf (g : CFGraph) (e : Nat) : Nat → Finset Nat :=
  domIter (liveNodes g e) (insert (dummyExit g e) (exitPointsOf g e))
    (succsAug g e) (dominatorFuel (liveNodes g e))

/-- `_find_post_dominators` result: the raw table with every reference
to the dummy exit removed. -/
def postDomsOf (g : CFGraph) (e : Nat) : Nat → Finset Nat :=
  fun n => (postRawOf g e n).erase (dummyExit g e)

/-- The record `process` stores on success. -/
def processResult (g : CFGraph) (e : Nat) : CFGResult :=
  ⟨liveNodes g e, liveEdges g e, e, exitPointsOf g e, domsOf g e,
    backEdgesOf g e, loopsOf g e, postDomsOf g e⟩

/-- `CFGraph.process()`: dead-block elimination, exit points, dominators,
back edges (with the one-back-edge-per-node assertion), loops, and post
dominators.  Raises when no entry point is set. -/
def process (g : CFGraph) : Except String CFGResult :=
  match g.entry with
  | none => .error "no entry point defined!"
  | some e =>
    if ({e} : Finset Nat) = ∅ then
      .error "no entry points: dominator algorithm cannot be seeded"
    else if backEdgeOk g e then
      if insert (dummyExit g e) (exitPointsOf g e) = ∅ then
        .error "no entry points: dominator algorithm cannot be seeded"
      else
        .ok (processResult g e)
    else .error "assert: at most one back edge can flow from a given block"

/-- `CFGraph.backbone()`: `return self._post_doms[self._entry_point]`. -/
def backbone (r : CFGResult) : Finset Nat :=
  r.postDoms r.entry

/-- `CFGraph.in_loops(node)`: the loops whose body contains `node`, in
registration order. -/
def inLoops (r : CFGResult) (n : Nat) : List Loop :=
  r.loops.filter (fun l => n ∈ l.body)

/-- Nodes reachable from `n` in the processed graph (used to state
claims about "exits reachable from n"). -/
def reachableFrom (r : CFGResult) (n : Nat) : Finset Nat :=
  reachClosure r.edges {n} (r.nodes.card + 1)

/-- The backbone computed by `ControlFlowAnalysis.run`: the graph
backbone minus every block lying inside a bytecode `(SETUP_LOOP, end)`
offset range. -/
def cfaBackbone (r : CFGResult) (loopRanges : List (Nat × Nat))
    (blocks : Finset Nat) : Finset Nat :=
  backbone r \ blocks.filter
    (fun b => loopRanges.any (fun se => decide (se.1 ≤ b) && decide (b < se.2)))

/-- Spec-side reading of C1, written from the spec's words: "backbone()
returns post-dominators of entry minus all loop-body nodes".  It is
compared against the source-translated `backbone` above. -/
def backboneSpecMinusLoops (r : CFGResult) : Finset Nat :=
  backbone r \ r.loops.foldr (fun l acc => l.body ∪ acc) ∅

/-! Helper lemmas about the dominator iteration and `process`. -/

lemma process_eq_ok {g : CFGraph} {r : CFGResult} (h : process g = Except.ok r) :
    ∃ e, g.entry = some e ∧ backEdgeOk g e ∧ r = processResult g e := by
  cases hg : g.entry with
  | none => simp only [process, hg] at h; exact absurd h (by simp)
  | some e =>
    simp only [process, hg] at h
    rw [if_neg (Finset.singleton_ne_empty e)] at h
    by_cases hb : backEdgeOk g e
    · rw [if_pos hb, if_neg (Finset.insert_ne_empty _ _)] at h
      exact ⟨e, rfl, hb, (Except.ok.inj h).symm⟩
    · rw [if_neg hb] at h; exact absurd h (by simp)

lemma domIter_row_of_entry (univ entries : Finset Nat) (p : Nat → Finset Nat)
    (f : Nat) {n : Nat} (hn : n ∈ entries) :
    domIter univ entries p f n = {n} := by
  induction f with
  | zero => simp [domIter, domInit, hn]
  | succ k ih => simp [domIter, domStep, hn, ih]

lemma mem_domIter_self (univ entries : Finset Nat) (p : Nat → Finset Nat)
    (f : Nat) {n : Nat} (hn : n ∈ univ ∨ n ∈ entries) :
    n ∈ domIter univ entries p f n := by
  induction f with
  | zero =>
    show n ∈ domInit univ entries n
    unfold domInit
    by_cases h1 : n ∈ entries
    · rw [if_pos h1]; exact Finset.mem_singleton_self n
    · rw [if_neg h1]
      rcases hn with h2 | h2
      · rw [if_pos h2]; exact h2
      · exact absurd h2 h1
  | succ k ih =>
    show n ∈ domStep univ entries p (domIter univ entries p k) n
    unfold domStep
    by_cases h1 : n ∈ entries
    · rw [if_pos h1]; exact ih
    · rw [if_neg h1]
      rcases hn with h2 | h2
      · rw [if_pos h2]
        exact Finset.mem_union_left _ (Finset.mem_singleton_self n)
      · exact absurd h2 h1

lemma domIter_row_subset (univ entries : Finset Nat) (p : Nat → Finset Nat)
    (hp : ∀ m, p m ⊆ univ ∪ entries) (f : Nat) :
    ∀ n, n ∈ univ ∨ n ∈ entries →
      domIter univ entries p f n ⊆ univ ∪ entries := by
  induction f with
  | zero =>
    intro n hn
    show domInit univ entries n ⊆ univ ∪ entries
    unfold domInit
    by_cases h1 : n ∈ entries
    · rw [if_pos h1]
      exact Finset.singleton_subset_iff.mpr (Finset.mem_union_right _ h1)
    · rw [if_neg h1]
      rcases hn with h2 | h2
      · rw [if_pos h2]; exact Finset.subset_union_left
      · exact absurd h2 h1
  | succ k ih =>
    intro n hn
    show domStep univ entries p (domIter univ entries p k) n ⊆ univ ∪ entries
    unfold domStep
    by_cases h1 : n ∈ entries
    · rw [if_pos h1]; exact ih n hn
    · rw [if_neg h1]
      rcases hn with h2 | h2
      · rw [if_pos h2]
        refine Finset.union_subset
          (Finset.singleton_subset_iff.mpr (Finset.mem_union_left _ h2)) ?_
        by_cases h3 : p n = ∅
        · rw [if_pos h3]; exact Finset.empty_subset _
        · rw [if_neg h3]
          unfold interOver
          rw [dif_neg h3]
          obtain ⟨a, ha⟩ := Finset.nonempty_iff_ne_empty.mpr h3
          have hrow : domIter univ entries p k a ⊆ univ ∪ entries := by
            rcases Finset.mem_union.mp (hp n ha) with h4 | h4
            · exact ih a (Or.inl h4)
            · exact ih a (Or.inr h4)
          intro x hx
          have hle : (p n).inf' ⟨a, ha⟩ (domIter univ entries p k) ≤
              domIter univ entries p k a := Finset.inf'_le _ ha
          exact hrow (hle hx)
      · exact absurd h2 h1

lemma mem_reachClosure_start (edges : Finset (Nat × Nat)) (s : Finset Nat)
    (f : Nat) {n : Nat} (hn : n ∈ s) : n ∈ reachClosure edges s f := by
  induction f with
  | zero => exact hn
  | succ k ih => exact Finset.mem_union_left _ ih

lemma entry_mem_liveNodes (g : CFGraph) (e : Nat) : e ∈ liveNodes g e :=
  mem_reachClosure_start _ _ _ (Finset.mem_singleton_self e)

lemma ne_dummyExit_of_mem_live {g : CFGraph} {e n : Nat}
    (hn : n ∈ liveNodes g e) : n ≠ dummyExit g e := by
  have : n ≤ (liveNodes g e).sup id := Finset.le_sup (f := id) hn
  unfold dummyExit
  omega

lemma liveSuccs_subset (g : CFGraph) (e : Nat) (n : Nat) :
    liveSuccs g e n ⊆ liveNodes g e := by
  intro x hx
  unfold liveSuccs succsOf at hx
  obtain ⟨p, hp, hpx⟩ := Finset.mem_image.mp hx
  have h2 := (Finset.mem_filter.mp (Finset.mem_filter.mp hp).1).2
  exact hpx ▸ h2.2

lemma livePreds_subset (g : CFGraph) (e : Nat) (n : Nat) :
    livePreds g e n ⊆ liveNodes g e := by
  intro x hx
  unfold livePreds predsOf at hx
  obtain ⟨p, hp, hpx⟩ := Finset.mem_image.mp hx
  have h2 := (Finset.mem_filter.mp (Finset.mem_filter.mp hp).1).2
  exact hpx ▸ h2.1

lemma mem_postDoms_self (g : CFGraph) (e : Nat) {n : Nat}
    (hn : n ∈ liveNodes g e) : n ∈ postDomsOf g e n := by
  unfold postDomsOf postRawOf
  exact Finset.mem_erase.mpr
    ⟨ne_dummyExit_of_mem_live hn, mem_domIter_self _ _ _ _ (Or.inl hn)⟩

lemma succsAug_subset (g : CFGraph) (e m : Nat) :
    succsAug g e m ⊆
      liveNodes g e ∪ insert (dummyExit g e) (exitPointsOf g e) := by
  intro y hy
  rcases Finset.mem_union.mp hy with h | h
  · exact Finset.mem_union_left _ (liveSuccs_subset g e m h)
  · by_cases hm : m ∈ noExitBodies g e
    · rw [if_pos hm] at h
      rw [Finset.mem_singleton.mp h]
      exact Finset.mem_union_right _ (Finset.mem_insert_self _ _)
    · rw [if_neg hm] at h
      exact absurd h (Finset.not_mem_empty y)

/-! Concrete graphs used to settle the control-flow claims. -/

/-- Entry 0, a self loop at node 1 with exit 2: node 1 post-dominates
the entry while also being a loop-body node. -/
def gC1 : CFGraph := ⟨{0, 1, 2}, {(0, 1), (1, 1), (1, 2)}, some 0⟩

/-- Entry 0, branch to two distinct exits 1 and 2. -/
def gC3 : CFGraph := ⟨{0, 1, 2}, {(0, 1), (0, 2)}, some 0⟩

/-- Entry 0, the two nodes form an infinite loop: no exit points. -/
def gC8 : CFGraph := ⟨{0, 1}, {(0, 1), (1, 0)}, some 0⟩

/-- One-node graph used as a generic witness input. -/
def gW10 : CFGraph := ⟨{0}, ∅, some 0⟩

/-- Two-node straight-line graph used as a generic witness input. -/
def gW3 : CFGraph := ⟨{0, 1}, {(0, 1)}, some 0⟩

/-- Graph with no entry point set. -/
def gW8 : CFGraph := ⟨{0}, ∅, none⟩

lemma process_gC1 : process gC1 = Except.ok (processResult gC1 0) := by
  simp only [process, show gC1.entry = some 0 from rfl]
  rw [if_neg (Finset.singleton_ne_empty 0),
    if_pos (by decide : backEdgeOk gC1 0),
    if_neg (Finset.insert_ne_empty _ _)]

lemma process_gC3 : process gC3 = Except.ok (processResult gC3 0) := by
  simp only [process, show gC3.entry = some 0 from rfl]
  rw [if_neg (Finset.singleton_ne_empty 0),
    if_pos (by decide : backEdgeOk gC3 0),
    if_neg (Finset.insert_ne_empty _ _)]

lemma process_gC8 : process gC8 = Except.ok (processResult gC8 0) := by
  simp only [process, show gC8.entry = some 0 from rfl]
  rw [if_neg (Finset.singleton_ne_empty 0),
    if_pos (by decide : backEdgeOk gC8 0),
    if_neg (Finset.insert_ne_empty _ _)]

lemma process_gW10 : process gW10 = Except.ok (processResult gW10 0) := by
  simp only [process, show gW10.entry = some 0 from rfl]
  rw [if_neg (Finset.singleton_ne_empty 0),
    if_pos (by decide : backEdgeOk gW10 0),
    if_neg (Finset.insert_ne_empty _ _)]

lemma process_gW3 : process gW3 = Except.ok (processResult gW3 0) := by
  simp only [process, show gW3.entry = some 0 from rfl]
  rw [if_neg (Finset.singleton_ne_empty 0),
    if_pos (by decide : backEdgeOk gW3 0),
    if_neg (Finset.insert_ne_empty _ _)]

/-- C10: after `process()` completes on a graph with an entry point,
`backbone()` contains the entry node itself and is therefore nonempty,
because the dominator fixed point keeps every node in its own
(post-)dominator row. -/
theorem backbone_contains_entry (g : CFGraph) (r : CFGResult)
    (h : process g = Except.ok r) :
    r.entry ∈ backbone r ∧ backbone r ≠ ∅ := by
  obtain ⟨e, hg, hb, rfl⟩ := process_eq_ok h
  have hm : e ∈ postDomsOf g e e := mem_postDoms_self g e (entry_mem_liveNodes g e)
  exact ⟨hm, Finset.ne_empty_of_mem hm⟩

theorem backbone_contains_entry_witness :
    (processResult gW10 0).entry ∈ backbone (processResult gW10 0) ∧
      backbone (processResult gW10 0) ≠ ∅ :=
  backbone_contains_entry gW10 (processResult gW10 0) process_gW10

/-- C3 (amended): after `process()`, every live node is in its own
dominator row, the entry's dominator row is exactly the entry
singleton, and every live node is in its own post-dominator row (the
original claim's clause about every reachable true exit lying in
`post_dominators(n)` is refuted by `postdoms_reachable_exit_cex`). -/
theorem doms_self_entry_postdoms (g : CFGraph) (r : CFGResult)
    (h : process g = Except.ok r) :
    ∀ n ∈ r.nodes,
      n ∈ r.doms n ∧ r.doms r.entry = {r.entry} ∧ n ∈ r.postDoms n := by
  obtain ⟨e, hg, hb, rfl⟩ := process_eq_ok h
  intro n hn
  refine ⟨mem_domIter_self _ _ _ _ (Or.inl hn), ?_, mem_postDoms_self g e hn⟩
  exact domIter_row_of_entry _ _ _ _ (Finset.mem_singleton_self e)

theorem doms_self_entry_postdoms_witness :
    0 ∈ (processResult gW3 0).doms 0 ∧
      (processResult gW3 0).doms (processResult gW3 0).entry =
        {(processResult gW3 0).entry} ∧
      0 ∈ (processResult gW3 0).postDoms 0 :=
  doms_self_entry_postdoms gW3 (processResult gW3 0) process_gW3 0 (by decide)

/-- C3 (counterexample): in `gC3` the exit 1 is reachable from the
entry 0 but does not post-dominate it (`post_doms(0) = {0}`), refuting
"every true exit point reachable from n is in post_dominators(n)". -/
theorem postdoms_reachable_exit_cex :
    process gC3 = Except.ok (processResult gC3 0) ∧
    (1 : Nat) ∈ (processResult gC3 0).exitPoints ∧
    (0 : Nat) ∈ (processResult gC3 0).nodes ∧
    (1 : Nat) ∈ reachableFrom (processResult gC3 0) 0 ∧
    (1 : Nat) ∉ (processResult gC3 0).postDoms 0 :=
  ⟨process_gC3, by decide, by decide, by decide, by decide⟩

/-- C8 (amended): `process()` raises `RuntimeError` when no entry point
has been set.  (The claim's second half is refuted by
`process_no_exit_points_cex`: a graph without exit points is processed
successfully thanks to the synthetic dummy exit.) -/
theorem process_requires_entry_point (g : CFGraph) (h : g.entry = none) :
    process g = Except.error "no entry point defined!" := by
  simp only [process, h]

theorem process_requires_entry_point_witness :
    process gW8 = Except.error "no entry point defined!" :=
  process_requires_entry_point gW8 rfl

/-- C8 (counterexample): `gC8` has no exit points, yet `process()`
succeeds (the infinite loop is linked to a synthetic exit), refuting
"raises an error when the graph has no exit points". -/
theorem process_no_exit_points_cex :
    process gC8 = Except.ok (processResult gC8 0) ∧
    (processResult gC8 0).exitPoints = ∅ :=
  ⟨process_gC8, by decide⟩

/-- C1 (amended): `CFGraph.backbone()` returns exactly the entry row of
the post-dominator fixed point (with the dummy exit scrubbed), a subset
of the live nodes; no loop-body subtraction is applied there (that
subtraction is performed downstream by `ControlFlowAnalysis.run`, cf.
`cfaBackbone`). -/
theorem backbone_is_entry_postdoms (g : CFGraph) (e : Nat) (r : CFGResult)
    (hp : process g = Except.ok r) (he : g.entry = some e) :
    backbone r = (postRawOf g e e).erase (dummyExit g e) ∧
      backbone r ⊆ r.nodes := by
  obtain ⟨e', hg, hb, rfl⟩ := process_eq_ok hp
  obtain rfl : e = e' := by rw [he] at hg; exact Option.some.inj hg
  refine ⟨rfl, ?_⟩
  intro x hx
  obtain ⟨hxne, hxm⟩ := Finset.mem_erase.mp hx
  have hsub : postRawOf g e e ⊆
      liveNodes g e ∪ insert (dummyExit g e) (exitPointsOf g e) :=
    domIter_row_subset _ _ _ (succsAug_subset g e) _ e
      (Or.inl (entry_mem_liveNodes g e))
  rcases Finset.mem_union.mp (hsub hxm) with h | h
  · exact h
  · rcases Finset.mem_insert.mp h with h | h
    · exact absurd h hxne
    · exact (Finset.mem_filter.mp h).1

theorem backbone_is_entry_postdoms_witness :
    backbone (processResult gC1 0) =
        (postRawOf gC1 0 0).erase (dummyExit gC1 0) ∧
      backbone (processResult gC1 0) ⊆ (processResult gC1 0).nodes :=
  backbone_is_entry_postdoms gC1 0 (processResult gC1 0) process_gC1 rfl

/-- C1 (counterexample): in `gC1` the loop-body node 1 post-dominates
the entry, so `backbone()` (which performs no loop subtraction) differs
from "post-dominators of entry minus all loop-body nodes". -/
theorem backbone_minus_loops_cex :
    process gC1 = Except.ok (processResult gC1 0) ∧
    backbone (processResult gC1 0) = {0, 1, 2} ∧
    backboneSpecMinusLoops (processResult gC1 0) = {0, 2} ∧
    (processResult gC1 0).loops.map (fun l => l.body) = [{1}] ∧
    backbone (processResult gC1 0) ≠
      backboneSpecMinusLoops (processResult gC1 0) :=
  ⟨process_gC1, by decide, by decide, by decide, by decide⟩

/-! Claim C2: loop registration order and `in_loops` order. -/

/-- Entry 0; inner self loop at 2 nested inside the outer loop
`{1, 2, 3}`, exit 4. -/
def gC2 : CFGraph :=
  ⟨{0, 1, 2, 3, 4}, {(0, 1), (1, 2), (2, 2), (2, 3), (3, 1), (3, 4)}, some 0⟩

lemma process_gC2 : process gC2 = Except.ok (processResult gC2 0) := by
  simp only [process, show gC2.entry = some 0 from rfl]
  rw [if_neg (Finset.singleton_ne_empty 0),
    if_pos (by decide : backEdgeOk gC2 0),
    if_neg (Finset.insert_ne_empty _ _)]

lemma sorted_card_indexOf_lt {l : List Loop} (hs : l.Sorted loopKeyLe)
    {a b : Loop} (ha : a ∈ l) (hb : b ∈ l)
    (hcard : a.body.card < b.body.card) :
    l.indexOf a < l.indexOf b := by
  by_contra hle
  push_neg at hle
  have halt := List.indexOf_lt_length.mpr ha
  have hblt := List.indexOf_lt_length.mpr hb
  rcases Nat.lt_or_ge (l.indexOf b) (l.indexOf a) with h | h
  · have hrel := hs.rel_get_of_lt
      (a := ⟨l.indexOf b, hblt⟩) (b := ⟨l.indexOf a, halt⟩) h
    rw [List.indexOf_get, List.indexOf_get] at hrel
    exact absurd hcard (Nat.not_lt.mpr hrel)
  · have heq : l.indexOf a = l.indexOf b := Nat.le_antisymm h hle
    have hab : a = b := by
      have h1 := List.indexOf_get (a := a) (l := l) halt
      have h2 := List.indexOf_get (a := b) (l := l) hblt
      rw [← h1, ← h2]
      congr 1
      exact Fin.ext heq
    rw [hab] at hcard
    exact absurd hcard (lt_irrefl _)

lemma loops_sorted (g : CFGraph) (e : Nat) :
    (loopsOf g e).Sorted loopKeyLe := by
  unfold loopsOf registerLoops
  exact List.sorted_insertionSort loopKeyLe _

/-- C2 (amended): loops are registered in smallest-body-first order —
for nested loops `L1 ⊃ L2` the inner `L2` is registered strictly before
`L1` — and consequently `in_loops(node)` lists the loops containing a
node from innermost to outermost. -/
theorem loops_registered_inner_before_outer (g : CFGraph) (r : CFGResult)
    (h : process g = Except.ok r) :
    ∀ L1 L2 n, L1 ∈ r.loops → L2 ∈ r.loops → L2.body ⊂ L1.body →
      n ∈ L2.body → n ∈ L1.body →
      r.loops.indexOf L2 < r.loops.indexOf L1 ∧
      (inLoops r n).indexOf L2 < (inLoops r n).indexOf L1 := by
  obtain ⟨e, hg, hb, rfl⟩ := process_eq_ok h
  intro L1 L2 n h1 h2 hss hn2 hn1
  have hcard : L2.body.card < L1.body.card := Finset.card_lt_card hss
  have hsorted : ((processResult g e).loops).Sorted loopKeyLe := loops_sorted g e
  refine ⟨sorted_card_indexOf_lt hsorted h2 h1 hcard, ?_⟩
  have hfil : (inLoops (processResult g e) n).Sorted loopKeyLe :=
    List.Pairwise.filter _ hsorted
  have hm2 : L2 ∈ inLoops (processResult g e) n :=
    List.mem_filter.mpr ⟨h2, decide_eq_true hn2⟩
  have hm1 : L1 ∈ inLoops (processResult g e) n :=
    List.mem_filter.mpr ⟨h1, decide_eq_true hn1⟩
  exact sorted_card_indexOf_lt hfil hm2 hm1 hcard

theorem loops_registered_inner_before_outer_witness :
    (processResult gC2 0).loops.indexOf ⟨2, {2}, {1}, {3}⟩ <
      (processResult gC2 0).loops.indexOf ⟨1, {1, 2, 3}, {0}, {4}⟩ ∧
    (inLoops (processResult gC2 0) 2).indexOf ⟨2, {2}, {1}, {3}⟩ <
      (inLoops (processResult gC2 0) 2).indexOf ⟨1, {1, 2, 3}, {0}, {4}⟩ :=
  loops_registered_inner_before_outer gC2 (processResult gC2 0) process_gC2
    ⟨1, {1, 2, 3}, {0}, {4}⟩ ⟨2, {2}, {1}, {3}⟩ 2
    (by decide) (by decide) (by decide) (by decide) (by decide)

/-- C2 (counterexample): in `gC2` the inner loop (body `{2}`, a strict
subset of the outer body `{1, 2, 3}`) is registered first, refuting
"largest-body-first / outer-before-inner registration"; `in_loops`
still lists innermost first. -/
theorem loops_registration_order_cex :
    process gC2 = Except.ok (processResult gC2 0) ∧
    (processResult gC2 0).loops.map (fun l => l.header) = [2, 1] ∧
    (processResult gC2 0).loops.map (fun l => l.body) = [{2}, {1, 2, 3}] ∧
    ({2} : Finset Nat) ⊂ {1, 2, 3} ∧
    (inLoops (processResult gC2 0) 2).map (fun l => l.header) = [2, 1] :=
  ⟨process_gC2, by decide, by decide, by decide, by decide⟩

/-! Type promotion (numba/typesystem/promotion.py).  The promotion
algorithm is translated from src; the type universe it runs on
(numba/typesystem/kinds.py and the universe object) is not under src/
and is modelled from the spec. -/

/-- Modelled from the spec: the type kinds of `numba/typesystem/kinds.py`
(not under src/): the scalar kinds bool/int/float/complex of the spec's
promotion policy, plus the pointer/null/object kinds used by the
promotion table, and kinds for char, C strings and arrays. -/
inductive NbKind
  | kBool | kInt | kFloat | kComplex | kPointer | kNull | kObject
  | kChar | kString | kArray
deriving DecidableEq

/-- Modelled from the spec: the concrete type universe (the spec's data
model: scalar bool/int/float/complex with width, array with element
type/rank/layout, pointer, the dynamic object type), plus the char
pointer / C-string types referenced by `DefaultPromoter.promote`. -/
inductive NbType
  | bool_ | int8 | int16 | int32 | int64
  | float32 | float64 | complex64 | complex128
  | char | null_ | object_ | c_string
  | pointer (base : NbType)
  | array (dtype : NbType) (ndim : Nat) (cc fc : Bool)
deriving DecidableEq

namespace NbType

/-- Modelled from the spec: `type.kind`. -/
def kind : NbType → NbKind
  | bool_ => .kBool
  | int8 | int16 | int32 | int64 => .kInt
  | float32 | float64 => .kFloat
  | complex64 | complex128 => .kComplex
  | char => .kChar
  | null_ => .kNull
  | object_ => .kObject
  | c_string => .kString
  | pointer _ => .kPointer
  | array _ _ _ _ => .kArray

/-- Modelled from the spec: `type.rank`, consistent with the spec's rank
order bool < int < float < complex and increasing with width inside a
kind. -/
def rank : NbType → Nat
  | bool_ => 1
  | int8 => 2 | int16 => 3 | int32 => 4 | int64 => 5
  | float32 => 10 | float64 => 11
  | complex64 => 20 | complex128 => 21
  | _ => 0

/-- Modelled from the spec: `u.itemsize(type)` (native size in bytes). -/
def itemsize : NbType → Nat
  | bool_ => 1
  | int8 => 1 | int16 => 2 | int32 => 4 | int64 => 8
  | float32 => 4 | float64 => 8
  | complex64 => 8 | complex128 => 16
  | _ => 0

/-- Modelled from the spec: `type.is_numeric`. -/
def isNumeric : NbType → Bool
  | bool_ | int8 | int16 | int32 | int64
  | float32 | float64 | complex64 | complex128 => true
  | _ => false

def isComplex (t : NbType) : Bool := t.kind == .kComplex
def isFloat (t : NbType) : Bool := t.kind == .kFloat
def isInt (t : NbType) : Bool := t.kind == .kInt
def isObject (t : NbType) : Bool := t.kind == .kObject

end NbType

/-- Modelled from the spec: the `integral` type list. -/
def integral : List NbType := [.int8, .int16, .int32, .int64]

/-- Modelled from the spec: the `floating` type list. -/
def floating : List NbType := [.float32, .float64]

/-- Modelled from the spec: the `complextypes` type list. -/
def complextypes : List NbType := [.complex64, .complex128]

/-- `find_type_of_size`: first type of the list with the wanted
itemsize (`assert False` when absent becomes `none`). -/
def findTypeOfSize (size : Nat) (l : List NbType) : Option NbType :=
  l.find? (fun t => t.itemsize == size)

/-- The kind-level promotion `table` of `numba/typesystem/promotion.py`. -/
def promotionTable : List ((NbKind × NbKind) × NbKind) :=
  [((.kPointer, .kInt), .kPointer), ((.kInt, .kPointer), .kPointer),
   ((.kPointer, .kNull), .kPointer), ((.kNull, .kPointer), .kPointer),
   ((.kObject, .kObject), .kObject), ((.kBool, .kBool), .kBool)]

/-- `promote_from_table`: look the kind pair up, then map the resulting
kind back to the matching operand (the Python dict
`{type1.kind: type1, type2.kind: type2}` lets `type2` win when both
kinds are equal). -/
def promoteFromTable (t1 t2 : NbType) : Option NbType :=
  match promotionTable.find? (fun en => en.1 == (t1.kind, t2.kind)) with
  | none => none
  | some en =>
    if t2.kind == en.2 then some t2
    else if t1.kind == en.2 then some t1
    else none

/-- `promote_numeric`: pick the higher-ranked operand (Python's `max`
keeps the first on ties); on mixed kinds recompute the width as the
max of the effective item sizes (half size for complex types) and
collapse to the type of that size in the winner's kind list. -/
def promoteNumeric (t1 t2 : NbType) : Option NbType :=
  let m := if t2.rank > t1.rank then t2 else t1
  if t1.kind ≠ t2.kind then
    let effItemsize := fun (t : NbType) =>
      if t.isComplex then t.itemsize / 2 else t.itemsize
    let size := max (effItemsize t1) (effItemsize t2)
    if m.isComplex then findTypeOfSize (size * 2) complextypes
    else if m.isFloat then findTypeOfSize size floating
    else if m.isInt then findTypeOfSize size integral
    else none
  else some m

/-- Fuelled embedding of `DefaultPromoter.promote` (`TypeError` and the
`find_type_of_size` assertion become `none`): table lookup, numeric
promotion, array/array, array/other, the char-pointer special case,
then object absorption. -/
def promoteF : Nat → NbType → NbType → Option NbType
  | 0, _, _ => none
  | fuel + 1, t1, t2 =>
    match promoteFromTable t1 t2 with
    | some r => some r
    | none =>
      if t1.isNumeric && t2.isNumeric then promoteNumeric t1 t2
      else
        match t1, t2 with
        | .array d1 n1 c1 f1, .array d2 n2 c2 f2 =>
          (promoteF fuel d1 d2).map (fun d =>
            .array d (max n1 n2) ((n1 == n2) && c1 && c2)
              ((n1 == n2) && f1 && f2))
        | .array d1 n1 _ _, other =>
          if other.isObject && !d1.isObject then some .object_
          else (promoteF fuel d1 other).map (fun d => .array d n1 false false)
        | other, .array d2 n2 _ _ =>
          if other.isObject && !d2.isObject then some .object_
          else (promoteF fuel d2 other).map (fun d => .array d n2 false false)
        | _, _ =>
          if t1 == .pointer .char then some .c_string
          else if t1.isObject || t2.isObject then some .object_
          else none

/-- Structural depth, used to pick sufficient fuel for `promoteF`. -/
def NbType.depth : NbType → Nat
  | .array d _ _ _ => d.depth + 1
  | .pointer b => b.depth + 1
  | _ => 1

/-- `DefaultPromoter.promote` with enough fuel for its recursion
through array element types. -/
def promote (t1 t2 : NbType) : Option NbType :=
  promoteF (t1.depth + t2.depth) t1 t2

/-- `true` when the char-pointer type occurs neither as the type itself
nor as a (nested) array element type. -/
def charPtrFree : NbType → Bool
  | .array d _ _ _ => charPtrFree d
  | .pointer b => !(b == .char)
  | _ => true

example : promote .int32 .float32 = some .float32 := rfl
example : promote .int64 .float32 = some .float64 := rfl
example : promote (.pointer .char) .object_ = some .c_string := rfl
example : promote .object_ (.pointer .char) = some .object_ := rfl
example : promote (.pointer .int8) (.pointer .int8) = none := rfl
example : promote (.pointer .int8) .int64 = some (.pointer .int8) := rfl
example : promote .bool_ .int8 = some .int8 := rfl
example : promote .int8 .complex64 = some .complex64 := rfl
example : promote .int64 .complex64 = some .complex128 := rfl
example : promote (.array .int32 2 true false) .float64 = some (.array .float64 2 false false) := rfl
example : promote (.array .int32 2 true false) (.array .float64 2 true false) = some (.array .float64 2 true false) := rfl
example : promote (.array .int32 2 true false) .object_ = some .object_ := rfl
example : promote .bool_ .bool_ = some .bool_ := rfl
example : promote .object_ .object_ = some .object_ := rfl

lemma beq_pointer_char_eq_false {b : NbType}
    (h : charPtrFree (.pointer b) = true) :
    ((NbType.pointer b) == .pointer .char) = false := by
  have hb : (b == .char) = false := by
    simpa [charPtrFree] using h
  have : b ≠ .char := by simpa using hb
  simp [this]

set_option maxHeartbeats 2000000 in
lemma promoteF_comm : ∀ (fuel : Nat) (t1 t2 : NbType),
    charPtrFree t1 = true → charPtrFree t2 = true →
    promoteF fuel t1 t2 = promoteF fuel t2 t1 := by
  intro fuel
  induction fuel with
  | zero => intro t1 t2 _ _; rfl
  | succ k ih =>
    intro t1 t2 h1 h2
    cases t1 <;> cases t2 <;> try rfl
    -- the array/array case: recurse on the element types
    case array.array d n c f d' n' c' f' =>
      show (promoteF k d d').map _ = (promoteF k d' d).map _
      rw [ih d d' h1 h2]
      cases promoteF k d' d with
      | none => rfl
      | some dd =>
        simp only [Option.map_some']
        have hbc : (n == n') = (n' == n) := by
          by_cases h : n = n'
          · simp [h]
          · simp [h, Ne.symm h]
        rw [Nat.max_comm, hbc]
        simp [Bool.and_assoc, Bool.and_comm, Bool.and_left_comm]
    -- pointer cases that reach the final catch-all: expose the pointee
    all_goals try
      (rename_i p q
       cases p <;> cases q <;>
         first
         | rfl
         | exact Bool.noConfusion h1
         | exact Bool.noConfusion h2)
    all_goals
      (rename_i p
       cases p <;>
         first
         | rfl
         | exact Bool.noConfusion h1
         | exact Bool.noConfusion h2)

lemma promoteF_idem : ∀ (fuel : Nat) (t r : NbType),
    charPtrFree t = true → promoteF fuel t t = some r → r = t := by
  intro fuel
  induction fuel with
  | zero => intro t r _ hr; exact Option.noConfusion hr
  | succ k ih =>
    intro t r h hr
    cases t
    case array d n c f =>
      rw [show promoteF (k + 1) (.array d n c f) (.array d n c f)
          = (promoteF k d d).map (fun x => NbType.array x (max n n)
              ((n == n) && c && c) ((n == n) && f && f)) from rfl] at hr
      cases hdd : promoteF k d d with
      | none => rw [hdd] at hr; exact Option.noConfusion hr
      | some dd =>
        rw [hdd] at hr
        have hddd : dd = d := ih d dd h hdd
        have hrr := (Option.some.inj hr).symm
        rw [hrr, hddd, Nat.max_self]
        simp
    case pointer p =>
      cases p <;>
        first
        | exact Option.noConfusion hr
        | exact Bool.noConfusion h
    all_goals
      first
      | exact (Option.some.inj hr).symm
      | exact Option.noConfusion hr

/-- C4 (amended): away from the char-pointer special case (which maps
`char*` asymmetrically to the C-string type), `promote` is commutative
on every pair and idempotent on every type on which it is defined. -/
theorem promote_comm_idem :
    (∀ t1 t2 : NbType, charPtrFree t1 = true → charPtrFree t2 = true →
      promote t1 t2 = promote t2 t1) ∧
    (∀ t r : NbType, charPtrFree t = true → promote t t = some r → r = t) := by
  constructor
  · intro t1 t2 h1 h2
    unfold promote
    rw [promoteF_comm _ t1 t2 h1 h2, Nat.add_comm t1.depth t2.depth]
  · intro t r h hr
    exact promoteF_idem _ t r h hr

theorem promote_comm_idem_witness :
    promote .int32 .float64 = promote .float64 .int32 ∧
      NbType.float64 = NbType.float64 :=
  ⟨promote_comm_idem.1 .int32 .float64 rfl rfl,
    promote_comm_idem.2 .float64 .float64 rfl rfl⟩

/-- C4 (counterexample): `promote(char*, object)` takes the char-pointer
branch and returns the C-string type while `promote(object, char*)`
takes the object branch — both defined, different results — and
`promote(T, T)` is not even defined for `T = int8*` (`TypeError`). -/
theorem promote_not_comm_idem_cex :
    promote (.pointer .char) .object_ = some .c_string ∧
    promote .object_ (.pointer .char) = some .object_ ∧
    promote (.pointer .char) .object_ ≠ promote .object_ (.pointer .char) ∧
    promote (.pointer .int8) (.pointer .int8) = none :=
  ⟨rfl, rfl, by decide, rfl⟩

/-- Spec-side rank of the kinds: bool < int < float < complex. -/
def kindRank : NbKind → Nat
  | .kBool => 0
  | .kInt => 1
  | .kFloat => 2
  | .kComplex => 3
  | _ => 4

/-- Effective width of a numeric operand: a complex type counts at half
its item size. -/
def effItemsize (t : NbType) : Nat :=
  if t.isComplex then t.itemsize / 2 else t.itemsize

/-- Spec-side definition, written from the claim's words: the narrowest
type of the given kind whose effective width is `w` (for complex types
the item size is twice the effective width). -/
def narrowestOfKindAt (k : NbKind) (w : Nat) : Option NbType :=
  match k with
  | .kComplex => complextypes.find? (fun t => t.itemsize == 2 * w)
  | .kFloat => floating.find? (fun t => t.itemsize == w)
  | .kInt => integral.find? (fun t => t.itemsize == w)
  | _ => none

/-- C5: mixed-kind numeric promotion yields the higher-ranked kind at
the larger effective width, collapsed to the narrowest type of that
kind at that width; `int32+float32 = float32`, `int64+float32 =
float64`; pointer plus any integer type promotes to the pointer type
(in both argument orders). -/
theorem promote_mixed_numeric (t1 t2 p t : NbType)
    (h1 : t1.isNumeric = true) (h2 : t2.isNumeric = true)
    (hk : t1.kind ≠ t2.kind) (ht : t.kind = NbKind.kInt) :
    promote t1 t2 =
      narrowestOfKindAt
        (if kindRank t2.kind > kindRank t1.kind then t2.kind else t1.kind)
        (max (effItemsize t1) (effItemsize t2)) ∧
    promote .int32 .float32 = some .float32 ∧
    promote .int64 .float32 = some .float64 ∧
    promote (.pointer p) t = some (.pointer p) ∧
    promote t (.pointer p) = some (.pointer p) := by
  refine ⟨?_, rfl, rfl, ?_, ?_⟩
  · cases t1 <;> cases t2 <;>
      first
      | rfl
      | exact absurd rfl hk
      | exact Bool.noConfusion h1
      | exact Bool.noConfusion h2
  · cases t <;>
      first
      | rfl
      | exact NbKind.noConfusion ht
  · cases t <;>
      first
      | rfl
      | exact NbKind.noConfusion ht

theorem promote_mixed_numeric_witness :
    promote .int32 .float32 =
      narrowestOfKindAt
        (if kindRank NbType.float32.kind > kindRank NbType.int32.kind
          then NbType.float32.kind else NbType.int32.kind)
        (max (effItemsize .int32) (effItemsize .float32)) ∧
    promote .int32 .float32 = some .float32 ∧
    promote .int64 .float32 = some .float64 ∧
    promote (.pointer .int8) .int64 = some (.pointer .int8) ∧
    promote .int64 (.pointer .int8) = some (.pointer .int8) :=
  promote_mixed_numeric .int32 .float32 .int8 .int64 rfl rfl
    (by decide) rfl

/-! Overload resolution (numba/typing/templates.py).  Argument and
return types are opaque codes (`Nat`); the context's
`type_compatibility` is a parameter, as in the source. -/

/-- The four conversion ratings returned by `context.type_compatibility`
(the last one is called `unsafe-convert` in the source). -/
inductive Conv
  | exact | promote | safe | lossy
deriving DecidableEq

/-- The `Signature` class: return type, ordered argument types and
optional receiver. -/
structure Sig where
  return_type : Nat
  args : List Nat
  recvr : Option Nat
deriving DecidableEq

/-- `Signature.__eq__`: compares `args` and `recvr`, not the return
type. -/
def sigEq (s1 s2 : Sig) : Bool :=
  s1.args == s2.args && s1.recvr == s2.recvr

/-- The `Rating` counters: promote / safe_convert / unsafe_convert. -/
structure Rating where
  promote : Nat
  safeConvert : Nat
  lossyConvert : Nat
deriving DecidableEq

def Rating.zero : Rating := ⟨0, 0, 0⟩

/-- `Rating.astuple`: worst first, `(unsafe, safe, promote)`. -/
def Rating.astuple (r : Rating) : Nat × Nat × Nat :=
  (r.lossyConvert, r.safeConvert, r.promote)

/-- `Rating.__add__`. -/
def Rating.add (a b : Rating) : Rating :=
  ⟨a.promote + b.promote, a.safeConvert + b.safeConvert,
    a.lossyConvert + b.lossyConvert⟩

/-- `_rate_arguments`: `None` when some argument is not convertible,
otherwise one `Rating` per argument behind a leading zero rating. -/
def rateArguments (compat : Nat → Nat → Option Conv)
    (actual formal : List Nat) : Option (List Rating) :=
  ((actual.zip formal).mapM (fun pair =>
    (compat pair.1 pair.2).map (fun c =>
      match c with
      | .promote => (⟨1, 0, 0⟩ : Rating)
      | .safe => ⟨0, 1, 0⟩
      | .lossy => ⟨0, 0, 1⟩
      | .exact => Rating.zero))).map (fun rs => Rating.zero :: rs)

/-- `reduce(operator.add, ratings)` (the list always starts with the
zero rating, so folding from zero is the same sum). -/
def sumRatings (l : List Rating) : Rating :=
  l.foldl Rating.add Rating.zero

/-- Lexicographic order on the `(unsafe, safe, promote)` tuples, i.e.
Python's tuple comparison. -/
def tupLe (a b : Nat × Nat × Nat) : Prop :=
  a.1 < b.1 ∨ (a.1 = b.1 ∧
    (a.2.1 < b.2.1 ∨ (a.2.1 = b.2.1 ∧ a.2.2 ≤ b.2.2)))

instance : DecidableRel tupLe := fun a b => by
  unfold tupLe; infer_instance

instance : IsTotal (Nat × Nat × Nat) tupLe := ⟨by intro a b; unfold tupLe; omega⟩

instance : IsTrans (Nat × Nat × Nat) tupLe :=
  ⟨by intro a b c h1 h2; unfold tupLe at *; omega⟩

/-- Order on `(rating tuple, case)` pairs used by
`sorted(zip(symm_ratings, candids), key=lambda i: i[0])`. -/
def pairLe (p q : (Nat × Nat × Nat) × Sig) : Prop := tupLe p.1 q.1

instance : DecidableRel pairLe := fun p q =>
  inferInstanceAs (Decidable (tupLe p.1 q.1))

instance : IsTotal ((Nat × Nat × Nat) × Sig) pairLe :=
  ⟨fun p q => IsTotal.total (r := tupLe) p.1 q.1⟩

instance : IsTrans ((Nat × Nat × Nat) × Sig) pairLe :=
  ⟨fun _ _ _ h1 h2 => IsTrans.trans (r := tupLe) _ _ _ h1 h2⟩

/-- Python's strict `<` on lists of tuples (element-wise lexicographic
with the prefix rule), used by `max(..., key=lambda x: x[0])`. -/
def listTupLt : List (Nat × Nat × Nat) → List (Nat × Nat × Nat) → Bool
  | [], [] => false
  | [], _ :: _ => true
  | _ :: _, [] => false
  | a :: as, b :: bs =>
    if a = b then listTupLt as bs
    else decide (tupLe a b)

/-- Python `max(iterable, key=...)`: keeps the earliest maximum. -/
def pyMax (key : Sig → List (Nat × Nat × Nat)) : List Sig → Option Sig
  | [] => none
  | x :: xs =>
    some (xs.foldl (fun best y =>
      if listTupLt (key best) (key y) then y else best) x)

/-- `resolve_ambiguous_resolution`: re-rate every tied case and take the
maximum of the per-argument rating-tuple lists (its callers only pass
convertible cases, so the `getD []` default is never used). -/
def resolveAmbiguous (compat : Nat → Nat → Option Conv)
    (cases : List Sig) (args : List Nat) : Option Sig :=
  pyMax (fun c => ((rateArguments compat args c.args).getD []).map
    Rating.astuple) cases

/-- The `(summed rating tuple, case)` pairs of the arity-matching,
fully convertible candidates (`candids` zipped with `symm_ratings`). -/
def candidatePairs (compat : Nat → Nat → Option Conv)
    (cases : List Sig) (args : List Nat) : List ((Nat × Nat × Nat) × Sig) :=
  cases.filterMap (fun c =>
    if args.length == c.args.length then
      (rateArguments compat args c.args).map
        (fun rs => ((sumRatings rs).astuple, c))
    else none)

/-- `resolve_overload`: sort the candidates by their summed rating
tuple; return the best one; on an exact tie between cases that are not
equal signatures, collect all tied cases and defer to the asymmetric
resolution, raising the ambiguity `TypeError` only when that fails. -/
def resolveOverload (compat : Nat → Nat → Option Conv)
    (cases : List Sig) (args : List Nat) : Except String (Option Sig) :=
  let ordered := List.insertionSort pairLe (candidatePairs compat cases args)
  match ordered with
  | [] => .ok none
  | (k1, c1) :: rest =>
    match rest with
    | [] => .ok (some c1)
    | (k2, c2) :: _ =>
      if k1 == k2 && !(sigEq c1 c2) then
        match resolveAmbiguous compat
          ((ordered.filter (fun p => p.1 == k1)).map Prod.snd) args with
        | some c => .ok (some c)
        | none => .error "Ambiguous overloading"
      else .ok (some c1)

/-- Arity matches and every argument converts. -/
def isCandidate (compat : Nat → Nat → Option Conv) (args : List Nat)
    (c : Sig) : Prop :=
  args.length = c.args.length ∧ (rateArguments compat args c.args).isSome

instance (compat args c) : Decidable (isCandidate compat args c) :=
  inferInstanceAs (Decidable (_ ∧ _))

/-- The summed `(unsafe, safe, promote)` tuple of a candidate. -/
def candKey (compat : Nat → Nat → Option Conv) (args : List Nat)
    (c : Sig) : Nat × Nat × Nat :=
  (sumRatings ((rateArguments compat args c.args).getD [])).astuple

lemma tupLe_refl (a : Nat × Nat × Nat) : tupLe a a := by
  unfold tupLe; omega

lemma mem_candidatePairs {compat : Nat → Nat → Option Conv}
    {cases : List Sig} {args : List Nat} {k : Nat × Nat × Nat} {c : Sig} :
    (k, c) ∈ candidatePairs compat cases args ↔
      c ∈ cases ∧ isCandidate compat args c ∧ k = candKey compat args c := by
  unfold candidatePairs
  rw [List.mem_filterMap]
  constructor
  · rintro ⟨a, ha, hfa⟩
    split at hfa
    case isTrue hl =>
      cases hra : rateArguments compat args a.args with
      | none => rw [hra] at hfa; exact Option.noConfusion hfa
      | some rs =>
        rw [hra] at hfa
        simp only [Option.map_some'] at hfa
        rw [Option.some_inj, Prod.mk.injEq] at hfa
        obtain ⟨hk, hc⟩ := hfa
        subst hk
        subst hc
        refine ⟨ha, ⟨by simpa using hl, by rw [hra]; rfl⟩, ?_⟩
        unfold candKey
        rw [hra]
        rfl
    case isFalse => exact Option.noConfusion hfa
  · rintro ⟨hc, ⟨hlen, hsome⟩, hk⟩
    refine ⟨c, hc, ?_⟩
    rw [if_pos (by simpa using hlen)]
    obtain ⟨rs, hrs⟩ := Option.isSome_iff_exists.mp hsome
    rw [hrs]
    simp only [Option.map_some']
    rw [hk]
    unfold candKey
    rw [hrs]
    rfl

lemma foldl_choice_mem (f : Sig → Sig → Sig)
    (hf : ∀ a b, f a b = a ∨ f a b = b) :
    ∀ (xs : List Sig) (x : Sig), xs.foldl f x ∈ x :: xs := by
  intro xs
  induction xs with
  | nil => intro x; exact List.mem_singleton_self x
  | cons y ys ih =>
    intro x
    have := ih (f x y)
    rcases hf x y with h | h <;> rw [h] at this
    · rcases List.mem_cons.mp this with h2 | h2
      · rw [List.foldl_cons, h, h2]; exact List.mem_cons_self _ _
      · rw [List.foldl_cons, h]; exact List.mem_cons_of_mem _ (List.mem_cons_of_mem _ h2)
    · rcases List.mem_cons.mp this with h2 | h2
      · rw [List.foldl_cons, h, h2]
        exact List.mem_cons_of_mem _ (List.mem_cons_self _ _)
      · rw [List.foldl_cons, h]
        exact List.mem_cons_of_mem _ (List.mem_cons_of_mem _ h2)

lemma pyMax_eq_some_mem (key : Sig → List (Nat × Nat × Nat))
    {l : List Sig} (hl : l ≠ []) :
    ∃ x, pyMax key l = some x ∧ x ∈ l := by
  cases l with
  | nil => exact absurd rfl hl
  | cons y ys =>
    refine ⟨_, rfl, ?_⟩
    exact foldl_choice_mem _ (fun a b => by
      by_cases h : listTupLt (key a) (key b) = true
      · rw [if_pos h]; exact Or.inr rfl
      · rw [if_neg h]; exact Or.inl rfl) ys y

lemma sorted_head_key_min {p : (Nat × Nat × Nat) × Sig}
    {l : List ((Nat × Nat × Nat) × Sig)}
    (hs : (p :: l).Sorted pairLe) :
    ∀ q ∈ p :: l, tupLe p.1 q.1 := by
  intro q hq
  rcases List.mem_cons.mp hq with h | h
  · rw [h]; exact tupLe_refl _
  · exact (List.pairwise_cons.mp hs).1 q h

/-- C6: among the candidates whose arity matches and whose every
argument is convertible, `resolve_overload` returns one whose summed
per-argument rating tuple `(unsafe, safe, promote)` is lexicographically
smallest; exact ties are handed to the asymmetric secondary resolution,
which always selects one of the tied candidates, so the ambiguity
`TypeError` is never raised. -/
theorem resolve_overload_min (compat : Nat → Nat → Option Conv)
    (cases : List Sig) (args : List Nat)
    (hex : ∃ c ∈ cases, isCandidate compat args c) :
    (∃ c, resolveOverload compat cases args = Except.ok (some c) ∧
      c ∈ cases ∧ isCandidate compat args c ∧
      ∀ c' ∈ cases, isCandidate compat args c' →
        tupLe (candKey compat args c) (candKey compat args c')) ∧
    ∀ s, resolveOverload compat cases args ≠ Except.error s := by
  obtain ⟨c0, hc0, hcand0⟩ := hex
  have hperm := List.perm_insertionSort pairLe (candidatePairs compat cases args)
  have hsorted := List.sorted_insertionSort pairLe (candidatePairs compat cases args)
  have hne : List.insertionSort pairLe (candidatePairs compat cases args) ≠ [] := by
    have h1 : (candKey compat args c0, c0) ∈ candidatePairs compat cases args :=
      mem_candidatePairs.mpr ⟨hc0, hcand0, rfl⟩
    have h2 := hperm.mem_iff.mpr h1
    intro h
    rw [h] at h2
    exact absurd h2 (List.not_mem_nil _)
  obtain ⟨⟨k1, c1⟩, rest, hcons⟩ := List.exists_cons_of_ne_nil hne
  -- every element of the sorted list is a candidate pair
  have hmemcand : ∀ p ∈ List.insertionSort pairLe (candidatePairs compat cases args),
      p.2 ∈ cases ∧ isCandidate compat args p.2 ∧ p.1 = candKey compat args p.2 := by
    intro p hp
    have := hperm.mem_iff.mp hp
    exact mem_candidatePairs.mp (by rw [← Prod.mk.eta (p := p)] at this ⊢; exact this)
  -- the head key is minimal among all candidates
  have hmin : ∀ c' ∈ cases, isCandidate compat args c' →
      tupLe k1 (candKey compat args c') := by
    intro c' hc' hcand'
    have hmem : (candKey compat args c', c') ∈
        List.insertionSort pairLe (candidatePairs compat cases args) :=
      hperm.mem_iff.mpr (mem_candidatePairs.mpr ⟨hc', hcand', rfl⟩)
    rw [hcons] at hmem
    have := sorted_head_key_min (by rw [hcons] at hsorted; exact hsorted) _ hmem
    exact this
  -- head is itself a candidate pair
  have hhead := hmemcand (k1, c1) (by rw [hcons]; exact List.mem_cons_self _ _)
  -- main existence statement
  have hmain : ∃ c, resolveOverload compat cases args = Except.ok (some c) ∧
      c ∈ cases ∧ isCandidate compat args c ∧
      ∀ c' ∈ cases, isCandidate compat args c' →
        tupLe (candKey compat args c) (candKey compat args c') := by
    unfold resolveOverload
    rw [hcons]
    dsimp only
    cases rest with
    | nil =>
      refine ⟨c1, rfl, hhead.1, hhead.2.1, ?_⟩
      rw [← hhead.2.2]
      exact hmin
    | cons p2 rest2 =>
      obtain ⟨k2, c2⟩ := p2
      dsimp only
      by_cases htie : (k1 == k2 && !(sigEq c1 c2)) = true
      · rw [if_pos htie]
        have hambne : ((((k1, c1) :: (k2, c2) :: rest2).filter
            (fun p => p.1 == k1)).map Prod.snd) ≠ [] := by
          have : (k1, c1) ∈ ((k1, c1) :: (k2, c2) :: rest2).filter
              (fun p => p.1 == k1) :=
            List.mem_filter.mpr ⟨List.mem_cons_self _ _, by simp⟩
          intro h
          have := List.mem_map_of_mem Prod.snd this
          rw [h] at this
          exact absurd this (List.not_mem_nil _)
        obtain ⟨c, hcmax, hcmem⟩ := pyMax_eq_some_mem
          (fun c => ((rateArguments compat args c.args).getD []).map
            Rating.astuple) hambne
        unfold resolveAmbiguous
        rw [hcmax]
        obtain ⟨⟨k', c''⟩, hkc, hc⟩ := List.mem_map.mp hcmem
        obtain ⟨hin, hkeq⟩ := List.mem_filter.mp hkc
        have hcand := hmemcand (k', c'') (by rw [hcons]; exact hin)
        dsimp only at hcand hkeq hc
        subst hc
        refine ⟨c'', rfl, hcand.1, hcand.2.1, ?_⟩
        rw [← hcand.2.2, show k' = k1 from by simpa using hkeq]
        exact hmin
      · rw [if_neg htie]
        refine ⟨c1, rfl, hhead.1, hhead.2.1, ?_⟩
        rw [← hhead.2.2]
        exact hmin
  refine ⟨hmain, ?_⟩
  intro s heq
  obtain ⟨c, hc, _⟩ := hmain
  rw [hc] at heq
  exact Except.noConfusion heq

/-- Exact-match-only compatibility used as a concrete context. -/
def compatW : Nat → Nat → Option Conv :=
  fun a b => if a == b then some .exact else none

/-- Two unary signatures used as concrete overload candidates. -/
def casesW : List Sig := [⟨0, [1], none⟩, ⟨0, [2], none⟩]

theorem resolve_overload_min_witness :
    (∃ c, resolveOverload compatW casesW [1] = Except.ok (some c) ∧
      c ∈ casesW ∧ isCandidate compatW [1] c ∧
      ∀ c' ∈ casesW, isCandidate compatW [1] c' →
        tupLe (candKey compatW [1] c) (candKey compatW [1] c')) ∧
    ∀ s, resolveOverload compatW casesW [1] ≠ Except.error s :=
  resolve_overload_min compatW casesW [1] (by decide)

/-! Variable stores (`Interpreter.store` in numba/interpreter.py).  The
selection of the assignment target is translated from src; the scope
methods `redefine` / `get_or_define` that it calls are not under src/
(src's ir.py has only define/refer/get_or_insert), so they are
modelled from the spec.  A scope is modelled as the list of bound
variable names, and only the target-selection policy is embedded (the
subsequent `ir.Assign` emission is irrelevant to the claim). -/

/-- Modelled from the spec: `Scope.redefine(name, rename=...)`.  With
`rename=True` a fresh versioned variable is created for the name; with
`rename=False` the binding keeps the plain name (updated in place). -/
def scopeRedefine (scope : List String) (name : String) (rename : Bool) :
    List String × String :=
  if rename then
    let fresh := name ++ "." ++ toString scope.length
    (scope ++ [fresh], fresh)
  else
    (if name ∈ scope then scope else scope ++ [name], name)

/-- Modelled from the spec: `Scope.get_or_define(name)`: return the
existing binding for the plain name, defining it first if absent. -/
def scopeGetOrDefine (scope : List String) (name : String) :
    List String × String :=
  (if name ∈ scope then scope else scope ++ [name], name)

/-- `Interpreter.store`'s target selection: when `redefine` is requested
or the current block offset lies on the CFG backbone, call
`redefine(name, rename = name not a cell variable)`; otherwise call
`get_or_define(name)`. -/
def storeTarget (redefine : Bool) (offset : Nat) (backbone : Finset Nat)
    (cellvars : List String) (scope : List String) (name : String) :
    List String × String :=
  if redefine || decide (offset ∈ backbone) then
    scopeRedefine scope name (!cellvars.contains name)
  else
    scopeGetOrDefine scope name

lemma versioned_ne (name s : String) : name ++ "." ++ s ≠ name := by
  intro h
  have hl := congrArg String.length h
  rw [String.length_append, String.length_append] at hl
  have : (".").length = 1 := rfl
  omega

/-- C7 (amended): without an explicit redefine request, `store` creates
a fresh versioned variable iff the current block offset lies on the
backbone AND the name is not a cell variable; in all other cases the
plain-name binding is (re)used in place. -/
theorem store_fresh_version_iff (offset : Nat) (backbone : Finset Nat)
    (cellvars : List String) (scope : List String) (name : String) :
    ((storeTarget false offset backbone cellvars scope name).2 ≠ name ↔
      offset ∈ backbone ∧ cellvars.contains name = false) := by
  unfold storeTarget scopeRedefine scopeGetOrDefine
  by_cases hb : offset ∈ backbone <;> by_cases hc : name ∈ cellvars <;>
    simp [hb, hc, List.elem_eq_mem,
      versioned_ne name (toString scope.length)]

/-- C7 (counterexample): for a cell variable the redefine path runs with
`rename=False`, so no fresh version is created even on the backbone,
refuting "a fresh versioned variable is created iff the offset lies on
the backbone". -/
theorem store_cellvar_no_rename_cex :
    (storeTarget false 0 {0} ["x"] [] "x").2 = "x" ∧
    (0 : Nat) ∈ ({0} : Finset Nat) ∧
    ¬ ((storeTarget false 0 {0} ["x"] [] "x").2 ≠ "x" ↔
        (0 : Nat) ∈ ({0} : Finset Nat)) := by
  refine ⟨rfl, by decide, ?_⟩
  intro h
  exact absurd (h.mpr (by decide)) (by simp [storeTarget, scopeRedefine])

/-! Array indexing (`get_item_pointer2` in numba/cgutils.py).  The
symbolic LLVM IR built by the builder is embedded as integer
arithmetic; a returned pointer is represented by the offset it adds to
`data` — an element offset for the contiguous `gep` fast paths, a byte
offset for the strided `pointer_add` fallback. -/

/-- The pointer result: `gep data [off]` (element offset) or
`pointer_add data off` (byte offset). -/
inductive ItemOffset
  | elemOffset (off : Int)
  | byteOffset (off : Int)
deriving DecidableEq

/-- The wraparound pass: each negative index is replaced by
`dimlen + index` (`builder.select(negative, wrapped, ind)`). -/
def wrapIndices (inds shape : List Int) : List Int :=
  List.zipWith (fun i d => if i < 0 then d + i else i) inds shape

/-- C-layout steps: for each dimension `i` the product of
`shape[i+1:]`, accumulated with `builder.mul` starting from 1. -/
def cSteps (shape : List Int) : List Int :=
  (List.range shape.length).map (fun i => (shape.drop (i + 1)).foldl (· * ·) 1)

/-- F-layout steps: for each dimension `i` the product of `shape[:i]`. -/
def fSteps (shape : List Int) : List Int :=
  (List.range shape.length).map (fun i => (shape.take i).foldl (· * ·) 1)

/-- `loc = 0; for i, s in zip(indices, steps): loc += i * s`. -/
def locOf (indices steps : List Int) : Int :=
  (List.zipWith (· * ·) indices steps).foldl (· + ·) 0

/-- `get_item_pointer2`: optional wraparound, the empty-tuple case, the
C/F contiguous fast paths (element offsets), and the generic strided
fallback (`reduce(add, [s*i ...])`, a byte offset). -/
def getItemPointer2 (shape strides : List Int) (layout : Char)
    (inds : List Int) (wraparound : Bool) : ItemOffset :=
  let indices := if wraparound then wrapIndices inds shape else inds
  if indices = [] then .elemOffset 0
  else if layout = 'C' then .elemOffset (locOf indices (cSteps shape))
  else if layout = 'F' then .elemOffset (locOf indices (fSteps shape))
  else .byteOffset ((List.zipWith (· * ·) strides indices).foldl (· + ·) 0)

/-- Spec-side C-layout offset, from the claim's words: the sum over
dimensions `i` of `index_i` times the product of `shape[j]` for
`j > i`. -/
def specCOffset : List Int → List Int → Int
  | i :: is, _ :: ds => i * ds.foldr (· * ·) 1 + specCOffset is ds
  | _, _ => 0

/-- Spec-side F-layout offset: the accumulator carries the product of
`shape[j]` for `j < i`. -/
def specFOffsetAux : Int → List Int → List Int → Int
  | acc, i :: is, d :: ds => i * acc + specFOffsetAux (acc * d) is ds
  | _, _, _ => 0

/-- Spec-side F-layout offset: the sum over dimensions `i` of `index_i`
times the product of `shape[j]` for `j < i`. -/
def specFOffset (inds shape : List Int) : Int :=
  specFOffsetAux 1 inds shape

/-- Spec-side strided byte offset: the sum over dimensions of
`strides_i * index_i`. -/
def specStrided : List Int → List Int → Int
  | s :: ss, i :: is => s * i + specStrided ss is
  | _, _ => 0

lemma intFoldlAdd (l : List Int) : ∀ x : Int,
    l.foldl (· + ·) x = x + l.foldl (· + ·) 0 := by
  induction l with
  | nil => intro x; simp
  | cons a l ih =>
    intro x
    rw [List.foldl_cons, List.foldl_cons, ih (x + a), ih (0 + a)]
    ring

lemma intFoldlMul (l : List Int) : ∀ x : Int,
    l.foldl (· * ·) x = x * l.foldr (· * ·) 1 := by
  induction l with
  | nil => intro x; simp
  | cons a l ih =>
    intro x
    rw [List.foldl_cons, List.foldr_cons, ih (x * a)]
    ring

lemma cSteps_cons (d : Int) (ds : List Int) :
    cSteps (d :: ds) = (ds.foldl (· * ·) 1) :: cSteps ds := by
  unfold cSteps
  rw [List.length_cons, List.range_succ_eq_map, List.map_cons, List.map_map]
  rfl

lemma fSteps_cons (d : Int) (ds : List Int) :
    fSteps (d :: ds) = 1 :: (fSteps ds).map (fun x => d * x) := by
  unfold fSteps
  rw [List.length_cons, List.range_succ_eq_map, List.map_cons, List.map_map,
    List.map_map]
  refine congrArg (fun l => (1 : Int) :: l) ?_
  refine List.map_congr_left ?_
  intro i _
  show ((d :: ds).take (i + 1)).foldl (· * ·) 1 = d * (ds.take i).foldl (· * ·) 1
  rw [List.take_succ_cons, List.foldl_cons, intFoldlMul, intFoldlMul]
  ring

lemma locOf_cSteps : ∀ (inds shape : List Int),
    inds.length = shape.length →
    locOf inds (cSteps shape) = specCOffset inds shape := by
  intro inds
  induction inds with
  | nil => intro shape _; rfl
  | cons i is ih =>
    intro shape hlen
    cases shape with
    | nil => exact absurd hlen (by simp)
    | cons d ds =>
      rw [cSteps_cons]
      unfold locOf specCOffset
      rw [List.zipWith_cons_cons, List.foldl_cons, intFoldlAdd,
        intFoldlMul]
      have := ih ds (by simpa using hlen)
      unfold locOf at this
      rw [this]
      ring

lemma locOf_fSteps_aux : ∀ (is ds : List Int) (a : Int),
    is.length = ds.length →
    locOf is ((fSteps ds).map (fun x => a * x)) = specFOffsetAux a is ds := by
  intro is
  induction is with
  | nil => intro ds a _; rfl
  | cons i is ih =>
    intro ds a hlen
    cases ds with
    | nil => exact absurd hlen (by simp)
    | cons d ds' =>
      rw [fSteps_cons]
      unfold locOf specFOffsetAux
      rw [List.map_cons, List.map_map, List.zipWith_cons_cons,
        List.foldl_cons, intFoldlAdd]
      have := ih ds' (a * d) (by simpa using hlen)
      unfold locOf at this
      rw [show ((fun x => a * x) ∘ fun x => d * x) = (fun x => (a * d) * x) by
        funext x; simp [mul_assoc], this]
      ring

lemma locOf_fSteps (inds shape : List Int) (hlen : inds.length = shape.length) :
    locOf inds (fSteps shape) = specFOffset inds shape := by
  have h1 : (fSteps shape).map (fun x => (1 : Int) * x) = fSteps shape := by
    simp
  rw [← h1, specFOffset]
  exact locOf_fSteps_aux inds shape 1 hlen

lemma strided_sum : ∀ (strides inds : List Int),
    strides.length = inds.length →
    (List.zipWith (· * ·) strides inds).foldl (· + ·) 0 =
      specStrided strides inds := by
  intro strides
  induction strides with
  | nil => intro inds _; rfl
  | cons s ss ih =>
    intro inds hlen
    cases inds with
    | nil => exact absurd hlen (by simp)
    | cons i is =>
      rw [List.zipWith_cons_cons, List.foldl_cons, intFoldlAdd]
      unfold specStrided
      rw [ih is (by simpa using hlen)]
      ring

lemma wrap_getD : ∀ (inds shape : List Int), inds.length = shape.length →
    ∀ i < shape.length,
      (wrapIndices inds shape).getD i 0 =
        if inds.getD i 0 < 0 then shape.getD i 0 + inds.getD i 0
        else inds.getD i 0 := by
  intro inds
  induction inds with
  | nil => intro shape hlen i hi; rw [← hlen] at hi; exact absurd hi (by simp)
  | cons x xs ih =>
    intro shape hlen i hi
    cases shape with
    | nil => exact absurd hlen (by simp)
    | cons d ds =>
      cases i with
      | zero => rfl
      | succ j =>
        have := ih ds (by simpa using hlen) j (by simpa using hi)
        simpa [wrapIndices] using this

/-- C9: wraparound replaces exactly the negative indices by
`shape[d] + i` before the offset is computed; the C-contiguous fast
path yields the element offset `Σ index_i · Π_{j>i} shape_j`, the
F-contiguous fast path `Σ index_i · Π_{j<i} shape_j`, and any other
layout the byte offset `Σ strides_i · index_i`. -/
theorem get_item_pointer_offsets (shape strides inds : List Int)
    (layout : Char) (i : Nat)
    (hlen : inds.length = shape.length)
    (hslen : strides.length = shape.length)
    (hne : inds ≠ []) (hi : i < shape.length)
    (hC : layout ≠ 'C') (hF : layout ≠ 'F') :
    ((wrapIndices inds shape).getD i 0 =
      if inds.getD i 0 < 0 then shape.getD i 0 + inds.getD i 0
      else inds.getD i 0) ∧
    (getItemPointer2 shape strides layout inds true =
      getItemPointer2 shape strides layout (wrapIndices inds shape) false) ∧
    getItemPointer2 shape strides 'C' inds false =
      .elemOffset (specCOffset inds shape) ∧
    getItemPointer2 shape strides 'F' inds false =
      .elemOffset (specFOffset inds shape) ∧
    getItemPointer2 shape strides layout inds false =
      .byteOffset (specStrided strides inds) := by
  refine ⟨wrap_getD inds shape hlen i hi, rfl, ?_, ?_, ?_⟩
  · by_cases h0 : inds = []
    · rw [h0]; rfl
    · simp [getItemPointer2, h0, locOf_cSteps inds shape hlen]
  · by_cases h0 : inds = []
    · rw [h0]; rfl
    · simp [getItemPointer2, h0, locOf_fSteps inds shape hlen]
  · simp [getItemPointer2, hne, hC, hF, strided_sum strides inds (by omega : strides.length = inds.length)]

theorem get_item_pointer_offsets_witness :
    ((wrapIndices [1, -1] [2, 3]).getD 1 0 =
      if ([1, -1] : List Int).getD 1 0 < 0 then
        ([2, 3] : List Int).getD 1 0 + ([1, -1] : List Int).getD 1 0
      else ([1, -1] : List Int).getD 1 0) ∧
    (getItemPointer2 [2, 3] [24, 8] 'A' [1, -1] true =
      getItemPointer2 [2, 3] [24, 8] 'A' (wrapIndices [1, -1] [2, 3]) false) ∧
    getItemPointer2 [2, 3] [24, 8] 'C' [1, -1] false =
      .elemOffset (specCOffset [1, -1] [2, 3]) ∧
    getItemPointer2 [2, 3] [24, 8] 'F' [1, -1] false =
      .elemOffset (specFOffset [1, -1] [2, 3]) ∧
    getItemPointer2 [2, 3] [24, 8] 'A' [1, -1] false =
      .byteOffset (specStrided [24, 8] [1, -1]) :=
  get_item_pointer_offsets [2, 3] [24, 8] [1, -1] 'A' 1
    rfl rfl (by decide) (by decide) (by decide) (by decide)
